import Mathlib

/-!
Verification of the ChatAGH data-collecting repository.

The development shallowly embeds the two core subsystems of the repository:

* the domain-restricted crawler `GraphGenerator` of
  `src/web_scraping/graph_generator.py` (`crawl`, `is_allowed_domain`), and
* the content scraper `Scraper` of `src/scraper.py` (`scrape`,
  `download_pdf`/`download_php_doc`/`download_html_content` orchestration,
  `_clean_html`, `_extract_title`, `_extract_content_blocks`,
  `_html_to_markdown`, `_normalize_text`).

External collaborators (HTTP fetch, OCR, the html2text converter together
with BeautifulSoup serialization) are modelled as function parameters; pure
Python string/regex operations are embedded directly, on `List Char`, with
ASCII character semantics.  Python floats are modelled as rationals.
-/

/-! ## Python string primitives (ASCII semantics) -/

/-- Characters matched by Python's `\s` / `str.strip()` (ASCII range). -/
def pySpace (c : Char) : Bool :=
  c = ' ' || c = '\t' || c = '\n' || c = '\r' || c = '\x0b' || c = '\x0c'

def dropLeadWs : List Char → List Char
  | [] => []
  | c :: cs => if pySpace c then dropLeadWs cs else c :: cs

/-- Python `str.strip()`: remove leading and trailing whitespace. -/
def pyStripL (cs : List Char) : List Char :=
  dropLeadWs (dropLeadWs cs.reverse).reverse

def pyStrip (s : String) : String := String.mk (pyStripL s.data)

def startsWithL : List Char → List Char → Bool
  | [], _ => true
  | _ :: _, [] => false
  | p :: ps, c :: cs => p = c && startsWithL ps cs

/-- Python `str.endswith(suffix)`. -/
def pyEndsWith (s suffix : String) : Bool :=
  startsWithL suffix.data.reverse s.data.reverse

def containsL (needle : List Char) : List Char → Bool
  | [] => startsWithL needle []
  | c :: cs => startsWithL needle (c :: cs) || containsL needle cs

/-- Python `needle in hay` on strings. -/
def strContains (hay needle : String) : Bool :=
  containsL needle.data hay.data

/-- Python `str.lower()` (ASCII letters). -/
def lowerStr (s : String) : String := String.mk (s.data.map Char.toLower)

/-! ## `urlparse(url).netloc` (the part of CPython's `urlsplit` that the
repository uses: scheme removal, then the authority after `//`). -/

def schemeChar (c : Char) : Bool :=
  c.isAlpha || c.isDigit || c = '+' || c = '-' || c = '.'

def splitColon : List Char → Option (List Char × List Char)
  | [] => none
  | c :: cs =>
    if c = ':' then some ([], cs)
    else (splitColon cs).map (fun p => (c :: p.1, p.2))

/-- Remove a leading `scheme:` when the scheme is well formed
(non-empty, starts with a letter, only scheme characters). -/
def dropSchemeL (cs : List Char) : List Char :=
  match splitColon cs with
  | some (bef, aft) =>
    if bef ≠ [] ∧ (bef.headD ' ').isAlpha = true ∧ bef.all schemeChar = true
    then aft else cs
  | none => cs

/-- `urlparse(url).netloc`: empty unless the remainder starts with `//`;
then everything up to the next `/`, `?` or `#`. -/
def netlocL (cs : List Char) : List Char :=
  match dropSchemeL cs with
  | '/' :: '/' :: r => r.takeWhile (fun c => !(c = '/' || c = '?' || c = '#'))
  | _ => []

def netlocStr (url : String) : String := String.mk (netlocL url.data)

/-! ## `GraphGenerator.is_allowed_domain`
(src/web_scraping/graph_generator.py, lines 131-152) -/

/-- `domain in allowed or any(domain.endswith('.' + d) for d in allowed)`,
with `domain = urlparse(url).netloc`; the `try/except` in the source makes
the function total, which the embedding is by construction. -/
def isAllowedDomain (url : String) (allowed : List String) : Bool :=
  let domain := netlocStr url
  allowed.contains domain || allowed.any (fun d => pyEndsWith domain ("." ++ d))

/-! ## `GraphGenerator.crawl` (src/web_scraping/graph_generator.py)

State: `queue` (Python list, FIFO via `pop(0)`/`append`), the seed-local
`visited` list, the instance-global `visited_urls` set and the NetworkX
`DiGraph G`.  Sets are modelled as insertion-ordered duplicate-free lists.
The link extractor (`extract_links_from_url`, a network call) is a
parameter `links : String → Option (List String)`: `some ls` is the `url`
column of the returned DataFrame (`[]` for the empty frame produced on
fetch errors), `none` models an exception escaping the extraction, which
`crawl` catches after `visited.append`. -/

structure CrawlGraph where
  nodes : List String
  edges : List (String × String)

def insertNew (l : List String) (x : String) : List String :=
  if x ∈ l then l else l ++ [x]

/-- NetworkX `G.add_node(x)`. -/
def addNode (g : CrawlGraph) (x : String) : CrawlGraph :=
  { g with nodes := insertNew g.nodes x }

/-- NetworkX `G.add_edge(u, v)`: adds missing endpoints, collapses
duplicate edges. -/
def addEdge (g : CrawlGraph) (u v : String) : CrawlGraph :=
  { nodes := insertNew (insertNew g.nodes u) v,
    edges := if (u, v) ∈ g.edges then g.edges else g.edges ++ [(u, v)] }

structure CrawlState where
  queue : List String
  visited : List String
  visitedUrls : List String
  G : CrawlGraph

def extensionsToFilter : List String := [".jpg"]

/-- Lines 96-99 of graph_generator.py:
`for extensions in extensions_to_filter: if current_url.endswith(extensions): continue`.
The `continue` targets this inner `for` loop, whose body ends right there,
so each iteration leaves the crawl state unchanged in both branches. -/
def blocklistCheck (currentUrl : String) (s : CrawlState) : CrawlState :=
  extensionsToFilter.foldl (fun st ext => if pyEndsWith currentUrl ext then st else st) s

/-- Body of `for link in links_df['url']` (lines 108-116): add the edge,
then enqueue allowed unvisited links; disallowed links get the (dead,
since `add_edge` already inserted them) `add_node` branch. -/
def linkStep (allowed : List String) (u : String) (st : CrawlState) (l : String) : CrawlState :=
  if isAllowedDomain l allowed then
    if l ∈ st.visited ∨ l ∈ st.visitedUrls then { st with G := addEdge st.G u l }
    else { st with G := addEdge st.G u l, queue := st.queue ++ [l] }
  else
    { st with G := if l ∈ (addEdge st.G u l).nodes then addEdge st.G u l
                   else addNode (addEdge st.G u l) l }

/-- One processed page: the blocklist check, `visited.append(current_url)`,
then the `try` block (link extraction, edge insertion, the final
`if current_url not in self.G: add_node`); `links u = none` models an
exception inside the `try`, which is caught with the iteration's remaining
work skipped. -/
def crawlVisit (links : String → Option (List String)) (allowed : List String)
    (s : CrawlState) (u : String) (rest : List String) : CrawlState :=
  let s0 := blocklistCheck u { s with queue := rest }
  let s1 := { s0 with visited := s0.visited ++ [u] }
  match links u with
  | none => s1
  | some ls =>
    let s2 := ls.foldl (linkStep allowed u) s1
    { s2 with G := if u ∈ s2.G.nodes then s2.G else addNode s2.G u }

/-- The `while queue and len(visited) < max_pages` loop of `crawl`
(lines 90-124), with the four state components as arguments. -/
def crawlLoop (links : String → Option (List String)) (allowed : List String)
    (maxPages : Nat) : List String → List String → List String → CrawlGraph → CrawlState
  | [], v, vu, g => ⟨[], v, vu, g⟩
  | u :: rest, v, vu, g =>
    if v.length < maxPages then
      if u ∈ v ∨ u ∈ vu then
        crawlLoop links allowed maxPages rest v vu g
      else
        crawlLoop links allowed maxPages
          (crawlVisit links allowed ⟨u :: rest, v, vu, g⟩ u rest).queue
          (crawlVisit links allowed ⟨u :: rest, v, vu, g⟩ u rest).visited
          (crawlVisit links allowed ⟨u :: rest, v, vu, g⟩ u rest).visitedUrls
          (crawlVisit links allowed ⟨u :: rest, v, vu, g⟩ u rest).G
      else ⟨u :: rest, v, vu, g⟩
termination_by q v _ _ => (maxPages - v.length, q.length)
decreasing_by
  · simp; omega
  · have hstep : ∀ (st : CrawlState) (a : String),
        (linkStep allowed u st a).visited = st.visited := by
      intro st a
      unfold linkStep
      split
      · split <;> rfl
      · rfl
    have hfold : ∀ (ls : List String) (st : CrawlState),
        (ls.foldl (linkStep allowed u) st).visited = st.visited := by
      intro ls
      induction ls with
      | nil => intro st; rfl
      | cons a as ih => intro st; rw [List.foldl_cons, ih, hstep]
    have hbl : ∀ s : CrawlState, blocklistCheck u s = s := by
      intro s; simp [blocklistCheck, extensionsToFilter]
    have hvis : (crawlVisit links allowed ⟨u :: rest, v, vu, g⟩ u rest).visited = v ++ [u] := by
      unfold crawlVisit
      rw [hbl]
      cases links u with
      | none => rfl
      | some ls => simp only []; rw [hfold]
    simp [hvis]
    omega

structure GenState where
  allowedDomains : List String
  visitedUrls : List String
  G : CrawlGraph

/-- The loop of one `crawl(start_url, max_pages)` call after
`self.allowed_domains.add(urlparse(start_url).netloc)`: queue seeded with
`[start_url]`, fresh seed-local `visited`. -/
def crawlRun (links : String → Option (List String)) (gen : GenState)
    (seed : String) (maxPages : Nat) : CrawlState :=
  crawlLoop links (insertNew gen.allowedDomains (netlocStr seed)) maxPages
    [seed] [] gen.visitedUrls gen.G

/-- Full `crawl`: run the loop, then `for url in visited: self.visited_urls.add(url)`. -/
def crawl (links : String → Option (List String)) (gen : GenState)
    (seed : String) (maxPages : Nat) : GenState :=
  { allowedDomains := insertNew gen.allowedDomains (netlocStr seed),
    visitedUrls := (crawlRun links gen seed maxPages).visited.foldl insertNew gen.visitedUrls,
    G := (crawlRun links gen seed maxPages).G }


/-- The links a processed page appends to the queue: those passing the
domain filter and neither in the (already `u`-extended) seed-local visited
list nor in the global visited set. -/
def enqueued (allowed v vu : List String) (ls : List String) : List String :=
  ls.filter (fun l => isAllowedDomain l allowed && !decide (l ∈ v) && !decide (l ∈ vu))

/-! ## `Scraper.scrape` orchestration (src/scraper.py, lines 28-44)

Per-URL processing, with the effectful collaborators summarized by an
environment `env : String → UrlBehavior`:

* `download_php_doc` (taken when `"doc.php" in url`) either raises
  (`PhpOutcome.raises`) or appends `Document(content, {"url": processed_url})`
  (`PhpOutcome.ok content resolvedUrl`, the resolved URL being computed from
  the fetched redirect page);
* `download_pdf` either raises (`PdfOutcome.raises`, caught by the inner
  `try`, which falls back to HTML), appends `Document(content, {"url": url})`
  on a 200 response (`PdfOutcome.ok content`), or — when
  `response.status_code != 200` — returns silently having appended nothing
  (`PdfOutcome.nonOk`);
* `download_html_content` never lets an exception escape: it returns early
  on fetch errors (`HtmlOutcome.fetchErr`), when no content block is found
  (`HtmlOutcome.noContent`) or when processing raises
  (`HtmlOutcome.procErr`), and appends `Document(content, {"url": url})` on
  success (`HtmlOutcome.ok content`). -/

structure Document where
  page_content : String
  url : String
deriving DecidableEq

inductive PhpOutcome where
  | raises
  | ok (content : String) (resolvedUrl : String)

inductive PdfOutcome where
  | raises
  | ok (content : String)
  | nonOk

inductive HtmlOutcome where
  | fetchErr
  | noContent
  | procErr
  | ok (content : String)

structure UrlBehavior where
  php : PhpOutcome
  pdf : PdfOutcome
  html : HtmlOutcome

structure ScrapeState where
  processed : List String
  failed : List String
  documents : List Document
deriving DecidableEq

/-- One iteration of the loop in `scrape`: route by URL shape, append the
Document on success, then `processed_urls.append(url)`; any exception is
caught by the outer handler, which appends to `failed_urls` instead. -/
def processUrl (env : String → UrlBehavior) (s : ScrapeState) (url : String) : ScrapeState :=
  if strContains url "doc.php" then
    match (env url).php with
    | .raises => { s with failed := s.failed ++ [url] }
    | .ok content resolved =>
      { s with documents := s.documents ++ [⟨content, resolved⟩],
               processed := s.processed ++ [url] }
  else
    match (env url).pdf with
    | .ok content =>
      { s with documents := s.documents ++ [⟨content, url⟩],
               processed := s.processed ++ [url] }
    | .nonOk => { s with processed := s.processed ++ [url] }
    | .raises =>
      match (env url).html with
      | .ok content =>
        { s with documents := s.documents ++ [⟨content, url⟩],
                 processed := s.processed ++ [url] }
      | _ => { s with processed := s.processed ++ [url] }

/-- `Scraper.scrape()` on a fresh instance (`processed_urls`, `failed_urls`
and `documents` start empty in `__init__`). -/
def scrape (env : String → UrlBehavior) (urls : List String) : ScrapeState :=
  urls.foldl (processUrl env) ⟨[], [], []⟩

/-! ## `Scraper._normalize_text` and the markdown deduplication
(src/scraper.py, lines 475-538)

All regular expressions used there are embedded as structural scans over
`List Char`. -/

/-- `re.sub(r"\s+", " ", text)`: each maximal whitespace run becomes one
space. -/
def squeezeWs : List Char → List Char
  | [] => []
  | c :: cs =>
    if pySpace c then
      match cs with
      | d :: _ => if pySpace d then squeezeWs cs else ' ' :: squeezeWs cs
      | [] => [' ']
    else c :: squeezeWs cs

/-- The characters removed by `re.sub(r"[#*_\[\]()~`>|-]", "", ...)`. -/
def mdPunct (c : Char) : Bool :=
  c = '#' || c = '*' || c = '_' || c = '[' || c = ']' || c = '(' || c = ')' ||
  c = '~' || c = '`' || c = '>' || c = '|' || c = '-'

/-- `Scraper._normalize_text`: empty for blank input; otherwise squeeze
whitespace, drop markdown punctuation, lowercase, strip; keys longer than
19 characters are truncated to the first 100. -/
def normalizeText (text : String) : String :=
  if pyStripL text.data = [] then ""
  else
    let normalized := pyStripL (((squeezeWs text.data).filter (fun c => !mdPunct c)).map Char.toLower)
    if normalized.length < 20 then String.mk normalized
    else String.mk (normalized.take 100)

/-- `re.sub(r"\n{3,}", "\n\n", md)`: runs of three or more newlines
collapse to exactly two. -/
def collapseNL : List Char → List Char
  | '\n' :: '\n' :: '\n' :: cs => collapseNL ('\n' :: '\n' :: cs)
  | c :: cs => c :: collapseNL cs
  | [] => []

/-- `re.split(r"\n\n+", md)`: split on maximal runs of two or more
newlines (computed right-to-left: a separator run extends an already
recognized separator, a lone newline joins the current piece). -/
def splitNN : List Char → List (List Char)
  | [] => [[]]
  | '\n' :: '\n' :: '\n' :: cs => splitNN ('\n' :: '\n' :: cs)
  | '\n' :: '\n' :: cs => [] :: ((splitNN ('\n' :: cs)).headD []).tail :: (splitNN ('\n' :: cs)).tail
  | '\n' :: cs => ('\n' :: (splitNN cs).headD []) :: (splitNN cs).tail
  | c :: cs => (c :: (splitNN cs).headD []) :: (splitNN cs).tail

def splitParas (s : String) : List String :=
  (splitNN s.data).map String.mk

/-- Python `"\n\n".join(paras)`. -/
def joinNN : List (List Char) → List Char
  | [] => []
  | [p] => p
  | p :: q :: rest => p ++ '\n' :: '\n' :: joinNN (q :: rest)

def joinParas (paras : List String) : String :=
  String.mk (joinNN (paras.map String.data))

/-- The per-paragraph loop of `_html_to_markdown` (lines 503-512): keep a
paragraph when its normalization key is non-empty, unseen and longer than
20 characters; record kept keys in `seen`.  Returns the kept paragraphs
and the extended `seen` set. -/
def dedupParas (seen : List String) : List String → List String × List String
  | [] => ([], seen)
  | p :: ps =>
    let normalized := normalizeText p
    if normalized ≠ "" ∧ normalized ∉ seen ∧ normalized.length > 20 then
      let r := dedupParas (normalized :: seen) ps
      (p :: r.1, r.2)
    else dedupParas seen ps

/-- `Scraper._html_to_markdown`: `render` stands for
`converter.handle(str(element))`, the composition of BeautifulSoup
serialization with the html2text collaborator; scores are rationals.  The
`seen` set persists across regions; each region contributes its kept
paragraphs joined by blank lines; the source footer is appended and the
result stripped. -/
def htmlToMarkdownR (render : α → String) (title : String)
    (blocks : List (ℚ × α)) (url : String) : String :=
  let step := fun (acc : String × List String) (blk : ℚ × α) =>
    let mdPart := String.mk (collapseNL (render blk.2).data)
    let paras := splitParas mdPart
    let r := dedupParas acc.2 paras
    (if r.1 ≠ [] then acc.1 ++ joinParas r.1 ++ "\n\n" else acc.1, r.2)
  let folded := blocks.foldl step (title, [])
  pyStrip (folded.1 ++ "\n\n---\nSource: " ++ url)

/-- The core normalization-and-deduplication pass on one region's rendered
markdown: collapse blank lines, split into paragraphs, deduplicate with a
fresh `seen` set, rejoin with blank lines. -/
def regionPass (md : String) : String :=
  joinParas (dedupParas [] (splitParas (String.mk (collapseNL md.data)))).1

/-! ## The HTML tree (BeautifulSoup model)

`HNode` models a parsed markup node: a text node or an element with a tag
name, attributes and children.  Attribute values are token lists: `class`
is multi-valued (whitespace-split by BeautifulSoup), other attributes
carry a single token.  A page is the forest of top-level nodes; searches
(`find` / `find_all`) walk elements in document (pre-)order. -/

inductive HNode where
  | text (s : String)
  | elem (tag : String) (attrs : List (String × List String)) (children : List HNode)

def HNode.tag : HNode → String
  | .text _ => ""
  | .elem t _ _ => t

def HNode.childrenD : HNode → List HNode
  | .text _ => []
  | .elem _ _ cs => cs

def HNode.attrVals : HNode → String → Option (List String)
  | .text _, _ => none
  | .elem _ as _, key => (as.find? (fun kv => kv.1 = key)).map (fun kv => kv.2)

mutual
/-- `get_text(strip=True)`: concatenation of the stripped text fragments
of the subtree. -/
def getTextStrip : HNode → String
  | .text s => pyStrip s
  | .elem _ _ cs => getTextStripL cs
def getTextStripL : List HNode → String
  | [] => ""
  | c :: cs => getTextStrip c ++ getTextStripL cs
end

mutual
/-- `get_text()`: concatenation of the raw text fragments of the subtree. -/
def getTextAll : HNode → String
  | .text s => s
  | .elem _ _ cs => getTextAllL cs
def getTextAllL : List HNode → String
  | [] => ""
  | c :: cs => getTextAll c ++ getTextAllL cs
end

mutual
/-- All element nodes of a subtree in document (pre-)order, the root
element included. -/
def elemsOfN : HNode → List HNode
  | .text _ => []
  | .elem t a cs => .elem t a cs :: elemsOfL cs
def elemsOfL : List HNode → List HNode
  | [] => []
  | c :: cs => elemsOfN c ++ elemsOfL cs
end

/-- `soup.find(...)`: first element of the page matching the predicate. -/
def findElem (p : HNode → Bool) (page : List HNode) : Option HNode :=
  (elemsOfL page).find? p

/-- `tag.find_all(...)`: the descendants of an element (itself excluded). -/
def descElems (n : HNode) : List HNode :=
  elemsOfL n.childrenD

mutual
/-- `element.decompose()` for every element matching `p`, applied
recursively (a removed element takes its whole subtree with it). -/
def stripElemsN (p : HNode → Bool) : HNode → List HNode
  | .text s => [.text s]
  | .elem t a cs => if p (.elem t a cs) then [] else [.elem t a (stripElemsL p cs)]
def stripElemsL (p : HNode → Bool) : List HNode → List HNode
  | [] => []
  | c :: cs => stripElemsN p c ++ stripElemsL p cs
end

/-! ### `Scraper._clean_html` (src/scraper.py, lines 161-208) -/

def removedTags : List String :=
  ["script", "style", "noscript", "svg", "iframe", "head", "meta"]

def noisePatterns : List String :=
  ["cookie", "popup", "banner", "ad-", "-ad", "advertisement",
   "notification", "subscribe", "newsletter", "promo", "share",
   "related-", "comment", "footer", "header", "nav", "menu",
   "sidebar", "widget", "toolbar", "modal"]

/-- `re.search(key + "\\s*" + word, cs)` for literal `key`/`word`: the
shape of the hidden-element pattern `display:\s*none|visibility:\s*hidden`. -/
def searchKeyWord (key word : List Char) : List Char → Bool
  | [] => startsWithL key [] && startsWithL word (List.dropWhile pySpace ([].drop key.length))
  | c :: cs =>
    (startsWithL key (c :: cs) &&
      startsWithL word (((c :: cs).drop key.length).dropWhile pySpace)) ||
    searchKeyWord key word cs

/-- `find_all(style=re.compile("display:\s*none|visibility:\s*hidden"))`. -/
def styleHidden (n : HNode) : Bool :=
  match n.attrVals "style" with
  | some (s :: _) =>
    searchKeyWord "display:".data "none".data s.data ||
    searchKeyWord "visibility:".data "hidden".data s.data
  | _ => false

/-- `find_all(class_=re.compile(pattern, re.I))`: some class token contains
the (literal, case-folded) pattern. -/
def classMatches (pat : String) (n : HNode) : Bool :=
  match n.attrVals "class" with
  | some vs => vs.any (fun v => strContains (lowerStr v) (lowerStr pat))
  | none => false

/-- `find_all(id=re.compile(pattern, re.I))`. -/
def idMatches (pat : String) (n : HNode) : Bool :=
  match n.attrVals "id" with
  | some vs => vs.any (fun v => strContains (lowerStr v) (lowerStr pat))
  | none => false

/-- `Scraper._clean_html`: decompose by tag name (`script`, ..., `head`,
`meta`), then hidden-style elements, then, pattern by pattern, noisy
class/id carriers. -/
def cleanHtml (page : List HNode) : List HNode :=
  let p1 := stripElemsL (fun n => removedTags.contains n.tag) page
  let p2 := stripElemsL styleHidden p1
  noisePatterns.foldl
    (fun pg pat => stripElemsL (idMatches pat) (stripElemsL (classMatches pat) pg)) p2

/-! ### `Scraper._extract_title` (src/scraper.py, lines 210-233) -/

/-- The final `if title: return f"# {title}\n\n"; return ""`. -/
def renderHeading (t : String) : String :=
  if t ≠ "" then "# " ++ t ++ "\n\n" else ""

/-- `Scraper._extract_title`: `og:title` meta first; else the `title`
element; else the first `h1`; rendered as a heading line. -/
def extractTitle (page : List HNode) : String :=
  renderHeading
    (match findElem (fun n => n.tag = "meta" &&
        decide (n.attrVals "property" = some ["og:title"])) page with
     | some m =>
       match m.attrVals "content" with
       | some (c :: _) => pyStrip c
       | _ => ""
     | none =>
       match findElem (fun n => n.tag = "title") page with
       | some t => pyStrip (getTextAll t)
       | none =>
         match findElem (fun n => n.tag = "h1") page with
         | some h => pyStrip (getTextAll h)
         | none => "")

mutual
/-- A page whose `title` elements all live inside some `head` element (the
well-formedness hypothesis used for the title-extraction claim). -/
def titlesOnlyInHeadN : HNode → Bool
  | .text _ => true
  | .elem t _ cs =>
    if t = "head" then true
    else if t = "title" then false
    else titlesOnlyInHeadL cs
def titlesOnlyInHeadL : List HNode → Bool
  | [] => true
  | c :: cs => titlesOnlyInHeadN c && titlesOnlyInHeadL cs
end

/-! ### `Scraper._extract_content_blocks` (src/scraper.py, lines 235-302) -/

def blockTags : List String :=
  ["p", "h1", "h2", "h3", "h4", "h5", "h6", "ul", "ol", "blockquote"]

def countTags : List String := ["p", "h1", "h2", "h3", "h4", "h5", "h6", "li"]

def skipPatterns : List String :=
  ["header", "footer", "nav", "menu", "sidebar", "banner",
   "advertisement", "cookie", "popup", "modal", "social",
   "comment", "widget", "toolbar", "masthead"]

def skipRoles : List String :=
  ["navigation", "banner", "complementary", "contentinfo"]

/-- `Scraper._is_content_container`. -/
def isContentContainer (n : HNode) : Bool :=
  if getTextStrip n = "" then false
  else if (getTextStrip n).length < 200 then false
  else if ((descElems n).filter (fun e => blockTags.contains e.tag)).length < 3 then false
  else if (match n.attrVals "class" with
           | some vs => vs.any (fun v => skipPatterns.any (fun pat => strContains (lowerStr v) pat))
           | none => false) then false
  else if (match n.attrVals "id" with
           | some vs => vs.any (fun v => skipPatterns.any (fun pat => strContains (lowerStr v) pat))
           | none => false) then false
  else if (match n.attrVals "role" with
           | some (r :: _) => skipRoles.contains (lowerStr r)
           | _ => false) then false
  else true

/-- The score computed for a surviving `main`/`article`/`section`
container (floats as rationals). -/
def scoreContainer (c : HNode) : ℚ :=
  let textLength : ℚ := (getTextStrip c).length
  let tagCount : ℚ := ((descElems c).filter (fun e => countTags.contains e.tag)).length
  let total : ℚ := (descElems c).length
  let linkElems := (descElems c).filter (fun e => e.tag = "a")
  let linkCount : ℚ := linkElems.length
  let linkTextLen : ℚ := ((linkElems.map (fun a => (getTextStrip a).length)).sum : ℕ)
  textLength / tagCount * (2/5) + tagCount / max 1 total * 30 +
    (1 - linkCount / max 1 tagCount) * 15 + (1 - linkTextLen / max 1 textLength) * 15 +
    (if c.tag = "article" then 20 else 0)

/-- `soup.find("div", itemprop="articleBody")`'s predicate: only `div`
elements qualify. -/
def isArticleBodyDiv (n : HNode) : Bool :=
  n.tag = "div" && decide (n.attrVals "itemprop" = some ["articleBody"])

def insertScoredDesc (x : ℚ × HNode) : List (ℚ × HNode) → List (ℚ × HNode)
  | [] => [x]
  | y :: ys => if x.1 > y.1 then x :: y :: ys else y :: insertScoredDesc x ys

/-- Python's stable `scored_blocks.sort(reverse=True, key=lambda x: x[0])`. -/
def sortScoredDesc (l : List (ℚ × HNode)) : List (ℚ × HNode) :=
  l.foldl (fun acc x => insertScoredDesc x acc) []

/-- `Scraper._extract_content_blocks`: the `articleBody` div shortcut,
else score the surviving semantic containers and return the top one or
two. -/
def extractContentBlocks (page : List HNode) : List (ℚ × HNode) :=
  match findElem isArticleBodyDiv page with
  | some d => [(100, d)]
  | none =>
    let priority := (elemsOfL page).filter
      (fun n => ["main", "article", "section"].contains n.tag)
    let scored := priority.foldl (fun acc c =>
      if isContentContainer c then
        if ((descElems c).filter (fun e => countTags.contains e.tag)).length = 0 then acc
        else acc ++ [(scoreContainer c, c)]
      else acc) []
    match sortScoredDesc scored with
    | [] => []
    | [b] => [b]
    | b1 :: b2 :: _ => if b1.1 > b2.1 * (3/2) then [b1] else [b1, b2]

/-! ### Concrete instances used in witnesses and counterexamples -/

/-- Link-extractor behaviour for the blocklist witness: the `.jpg` page
links to one in-domain and one external page. -/
def linksJpg : String → Option (List String) := fun u =>
  if u = "http://ex.com/p.jpg" then some ["http://ex.com/a", "http://other.org/b"]
  else some []

/-- A fully connected synthetic three-page site on one domain. -/
def linksBfs : String → Option (List String) := fun u =>
  if u = "http://ex.com/a" then some ["http://ex.com/b", "http://ex.com/c"]
  else if u = "http://ex.com/b" then some ["http://ex.com/a", "http://ex.com/c"]
  else if u = "http://ex.com/c" then some ["http://ex.com/a", "http://ex.com/b"]
  else some []

/-- Environment where every PDF request comes back with a non-200 status:
`download_pdf` returns silently, appending no Document and raising
nothing. -/
def envPdfNonOk : String → UrlBehavior := fun _ =>
  { php := .raises, pdf := .nonOk, html := .noContent }

def dummyNode : HNode := .text ""

def articleBodyDivEx : HNode :=
  .elem "div" [("itemprop", ["articleBody"])] [.text "Article body text."]

/-- A cleaned page containing an `articleBody` div among other elements. -/
def articleBodyPage : List HNode :=
  [.elem "html" [] [.elem "body" [] [
    .elem "p" [] [.text "Intro paragraph."],
    articleBodyDivEx,
    .elem "article" [] [.text "Another candidate."]]]]

def spanBodyEx : HNode := .elem "span" [("itemprop", ["articleBody"])] [.text "Body text."]

/-- A cleaned page whose only `itemprop="articleBody"` carrier is a `span`. -/
def spanBodyPage : List HNode :=
  [.elem "html" [] [.elem "body" [] [spanBodyEx]]]

/-- A well-formed fetched page: `title` and `og:title` meta inside `head`,
an `h1` in the body. -/
def titlePageEx : List HNode :=
  [.elem "html" [] [
    .elem "head" [] [
      .elem "title" [] [.text "Doc title"],
      .elem "meta" [("property", ["og:title"]), ("content", ["OG title"])] []],
    .elem "body" [] [
      .elem "h1" [] [.text "  Main heading "],
      .elem "p" [] [.text "Body."]]]]

/-- One long paragraph (normalization key well over 20 characters). -/
def paraC9 : String :=
  "This paragraph has well over twenty characters of content."

/-- A URL long enough that the `Source:` footer paragraph's normalization
key exceeds 20 characters. -/
def urlC9 : String := "http://example.com/a-long-page-name"

/-- Whether the character list contains two adjacent newlines. -/
def hasNN : List Char → Bool
  | '\n' :: '\n' :: _ => true
  | _ :: cs => hasNN cs
  | [] => false

/-! placeholder more defs -/

/-- Structural invariants of the paragraph pieces produced by `splitNN`:
no piece contains a blank line, pieces after the first do not start with a
newline, pieces before the last do not end with one. -/
def PiecesOK (L : List (List Char)) : Prop :=
  (∀ p ∈ L, hasNN p = false) ∧
  (∀ p ∈ L.tail, p.headD ' ' ≠ '\n') ∧
  (∀ p ∈ L.dropLast, p.getLast? ≠ some '\n')

theorem blocklistCheck_eq (u : String) (s : CrawlState) : blocklistCheck u s = s := by
  simp [blocklistCheck, extensionsToFilter]

theorem linkStep_visited (allowed : List String) (u : String) (st : CrawlState) (l : String) :
    (linkStep allowed u st l).visited = st.visited ∧
    (linkStep allowed u st l).visitedUrls = st.visitedUrls := by
  unfold linkStep
  split <;> [skip; simp]
  split <;> simp

theorem foldl_linkStep_visited (allowed : List String) (u : String) (ls : List String) :
    ∀ st : CrawlState, (ls.foldl (linkStep allowed u) st).visited = st.visited ∧
      (ls.foldl (linkStep allowed u) st).visitedUrls = st.visitedUrls := by
  induction ls with
  | nil => intro st; simp
  | cons l ls ih =>
    intro st
    have h := linkStep_visited allowed u st l
    simpa [List.foldl_cons, h.1, h.2] using ih (linkStep allowed u st l)

theorem crawlVisit_visited (links : String → Option (List String)) (allowed : List String)
    (s : CrawlState) (u : String) (rest : List String) :
    (crawlVisit links allowed s u rest).visited = s.visited ++ [u] ∧
    (crawlVisit links allowed s u rest).visitedUrls = s.visitedUrls := by
  unfold crawlVisit
  rw [blocklistCheck_eq]
  cases links u with
  | none => simp
  | some ls =>
    have h := foldl_linkStep_visited allowed u ls
      { queue := rest, visited := s.visited ++ [u], visitedUrls := s.visitedUrls, G := s.G }
    simp only []
    constructor
    · simpa using h.1
    · simpa using h.2

/-! ### Characterization of one processed page -/

theorem mem_insertNew (l : List String) (x y : String) (h : x ∈ l) : x ∈ insertNew l y := by
  unfold insertNew; split <;> simp [h]

theorem self_mem_insertNew (l : List String) (x : String) : x ∈ insertNew l x := by
  unfold insertNew; split <;> simp_all

theorem addEdge_mono (g : CrawlGraph) (u v : String) :
    (∀ e, e ∈ g.edges → e ∈ (addEdge g u v).edges) ∧
    (∀ x, x ∈ g.nodes → x ∈ (addEdge g u v).nodes) := by
  constructor
  · intro e he; unfold addEdge; simp only []
    split <;> simp [he]
  · intro x hx; exact mem_insertNew _ _ _ (mem_insertNew _ _ _ hx)

theorem addEdge_self (g : CrawlGraph) (u v : String) :
    (u, v) ∈ (addEdge g u v).edges ∧ v ∈ (addEdge g u v).nodes := by
  constructor
  · unfold addEdge; simp only []; split <;> simp_all
  · exact self_mem_insertNew _ _

theorem linkStep_G_mono (allowed : List String) (u : String) (st : CrawlState) (l : String) :
    (∀ e, e ∈ st.G.edges → e ∈ (linkStep allowed u st l).G.edges) ∧
    (∀ x, x ∈ st.G.nodes → x ∈ (linkStep allowed u st l).G.nodes) := by
  have hm := addEdge_mono st.G u l
  unfold linkStep
  split
  · split <;> exact ⟨hm.1, hm.2⟩
  · constructor
    · intro e he
      simp only []
      split
      · exact hm.1 e he
      · exact hm.1 e he
    · intro x hx
      simp only []
      split
      · exact hm.2 x hx
      · exact mem_insertNew _ _ _ (hm.2 x hx)

theorem linkStep_edge (allowed : List String) (u : String) (st : CrawlState) (l : String) :
    (u, l) ∈ (linkStep allowed u st l).G.edges ∧ l ∈ (linkStep allowed u st l).G.nodes := by
  have hs := addEdge_self st.G u l
  unfold linkStep
  split
  · split <;> exact hs
  · constructor
    · simp only []
      split
      · exact hs.1
      · exact hs.1
    · simp only []
      split
      · exact hs.2
      · exact mem_insertNew _ _ _ hs.2

theorem foldl_linkStep_G_mono (allowed : List String) (u : String) (ls : List String) :
    ∀ st : CrawlState,
      (∀ e, e ∈ st.G.edges → e ∈ (ls.foldl (linkStep allowed u) st).G.edges) ∧
      (∀ x, x ∈ st.G.nodes → x ∈ (ls.foldl (linkStep allowed u) st).G.nodes) := by
  induction ls with
  | nil => intro st; simp
  | cons l ls ih =>
    intro st
    have h1 := linkStep_G_mono allowed u st l
    have h2 := ih (linkStep allowed u st l)
    exact ⟨fun e he => h2.1 e (h1.1 e he), fun x hx => h2.2 x (h1.2 x hx)⟩

theorem foldl_linkStep_edges (allowed : List String) (u : String) (ls : List String) :
    ∀ st : CrawlState, ∀ l ∈ ls,
      (u, l) ∈ (ls.foldl (linkStep allowed u) st).G.edges ∧
      l ∈ (ls.foldl (linkStep allowed u) st).G.nodes := by
  induction ls with
  | nil => intro st l hl; simp at hl
  | cons a as ih =>
    intro st l hl
    rcases List.mem_cons.1 hl with h | h
    · subst h
      have h1 := linkStep_edge allowed u st l
      have h2 := foldl_linkStep_G_mono allowed u as (linkStep allowed u st l)
      exact ⟨h2.1 _ h1.1, h2.2 _ h1.2⟩
    · exact ih (linkStep allowed u st a) l h

theorem linkStep_queue (allowed : List String) (u : String) (st : CrawlState) (l : String) :
    (linkStep allowed u st l).queue =
      st.queue ++ (if isAllowedDomain l allowed && !decide (l ∈ st.visited) && !decide (l ∈ st.visitedUrls)
                   then [l] else []) := by
  unfold linkStep
  split
  · split
    · next h1 h2 =>
      rcases h2 with h | h <;> simp [h, h1]
    · next h1 h2 =>
      push_neg at h2
      simp [h1, h2.1, h2.2]
  · next h1 =>
    simp only [Bool.not_eq_true] at h1
    simp [h1]

theorem foldl_linkStep_queue (allowed : List String) (u : String) (ls : List String) :
    ∀ st : CrawlState, (ls.foldl (linkStep allowed u) st).queue =
      st.queue ++ enqueued allowed st.visited st.visitedUrls ls := by
  induction ls with
  | nil => intro st; simp [enqueued]
  | cons a as ih =>
    intro st
    have hv := linkStep_visited allowed u st a
    have hq := linkStep_queue allowed u st a
    rw [List.foldl_cons, ih (linkStep allowed u st a), hq, hv.1, hv.2]
    simp only [enqueued, List.filter_cons]
    split <;> simp

theorem crawlVisit_queue (links : String → Option (List String)) (allowed : List String)
    (s : CrawlState) (u : String) (rest : List String) (ls : List String)
    (h : links u = some ls) :
    (crawlVisit links allowed s u rest).queue =
      rest ++ enqueued allowed (s.visited ++ [u]) s.visitedUrls ls := by
  unfold crawlVisit
  rw [blocklistCheck_eq, h]
  simp only []
  rw [foldl_linkStep_queue]

theorem crawlVisit_edges (links : String → Option (List String)) (allowed : List String)
    (s : CrawlState) (u : String) (rest : List String) (ls : List String)
    (h : links u = some ls) :
    ∀ l ∈ ls, (u, l) ∈ (crawlVisit links allowed s u rest).G.edges ∧
      l ∈ (crawlVisit links allowed s u rest).G.nodes := by
  intro l hl
  unfold crawlVisit
  rw [blocklistCheck_eq, h]
  simp only []
  have h1 := foldl_linkStep_edges allowed u ls
    { queue := rest, visited := s.visited ++ [u], visitedUrls := s.visitedUrls, G := s.G } l hl
  constructor
  · split
    · exact h1.1
    · exact h1.1
  · split
    · exact h1.2
    · exact mem_insertNew _ _ _ h1.2

/-! ## Claim C8: the domain filter -/

/-- C8 counterexample: called literally on the bare host string
`"sub.example.com"` (no scheme, no `//`), `urlparse` yields an empty
authority, so `is_allowed_domain` returns `False`, not `True` as the
claim's example states. -/
theorem is_allowed_domain_bare_host :
    isAllowedDomain "sub.example.com" ["example.com"] = false ∧
    netlocStr "sub.example.com" = "" := by
  constructor <;> decide

/-- C8 (amended): `is_allowed_domain(url)` is true iff the URL's authority
(`urlparse(url).netloc`) equals an allowed domain or ends with `"." + d`
for an allowed `d`; it is total (never raises).  The claim's examples hold
for URLs actually carrying those authorities: a bare host string has an
empty authority and yields false. -/
theorem is_allowed_domain_spec (url : String) (allowed : List String) :
    (isAllowedDomain url allowed = true ↔
      netlocStr url ∈ allowed ∨ ∃ d ∈ allowed, pyEndsWith (netlocStr url) ("." ++ d) = true) ∧
    isAllowedDomain "http://sub.example.com" ["example.com"] = true ∧
    isAllowedDomain "http://example.com.evil.com" ["example.com"] = false ∧
    isAllowedDomain "http://example.com" ["example.com"] = true := by
  refine ⟨?_, by decide, by decide, by decide⟩
  simp [isAllowedDomain, List.any_eq_true]

/-! ## Claims C3 and C4: `Scraper.scrape` bookkeeping -/

theorem processUrl_cases (env : String → UrlBehavior) (s : ScrapeState) (url : String) :
    ((processUrl env s url).failed = s.failed ++ [url] ∧
      (processUrl env s url).documents = s.documents ∧
      (processUrl env s url).processed = s.processed) ∨
    ((processUrl env s url).failed = s.failed ∧
      (processUrl env s url).processed = s.processed ++ [url] ∧
      ((processUrl env s url).documents = s.documents ∨
        ∃ d : Document, (processUrl env s url).documents = s.documents ++ [d])) := by
  unfold processUrl
  split
  · rcases (env url).php with _ | ⟨c, r⟩
    · left; exact ⟨rfl, rfl, rfl⟩
    · right; exact ⟨rfl, rfl, Or.inr ⟨⟨c, r⟩, rfl⟩⟩
  · rcases (env url).pdf with _ | ⟨c⟩ | _
    · rcases (env url).html with _ | _ | _ | ⟨c⟩
      · right; exact ⟨rfl, rfl, Or.inl rfl⟩
      · right; exact ⟨rfl, rfl, Or.inl rfl⟩
      · right; exact ⟨rfl, rfl, Or.inl rfl⟩
      · right; exact ⟨rfl, rfl, Or.inr ⟨⟨c, url⟩, rfl⟩⟩
    · right; exact ⟨rfl, rfl, Or.inr ⟨⟨c, url⟩, rfl⟩⟩
    · right; exact ⟨rfl, rfl, Or.inl rfl⟩

/-- C3 counterexample: a URL (no `doc.php`) whose PDF request returns a
non-200 status: `download_pdf` returns silently without raising, the HTML
fallback is never taken, and `scrape` appends the URL to `processed_urls`
with no Document appended at all. -/
theorem processed_without_document :
    (processUrl envPdfNonOk ⟨[], [], []⟩ "http://ex.com/file").processed =
      ["http://ex.com/file"] ∧
    (processUrl envPdfNonOk ⟨[], [], []⟩ "http://ex.com/file").documents = [] := by
  constructor <;> decide

/-- C3 (amended): during one URL's processing `scrape` appends at most one
Document; if the URL fails, nothing is appended; if a Document is
appended, the URL is also appended to `processed_urls` — but a URL can be
appended to `processed_urls` with no Document (non-200 PDF response, HTML
fetch error, no content found, or HTML processing error). -/
theorem processUrl_documents_at_most_one (env : String → UrlBehavior)
    (s : ScrapeState) (url : String) :
    ((processUrl env s url).failed = s.failed ++ [url] ∧
      (processUrl env s url).documents = s.documents ∧
      (processUrl env s url).processed = s.processed) ∨
    ((processUrl env s url).failed = s.failed ∧
      (processUrl env s url).processed = s.processed ++ [url] ∧
      ((processUrl env s url).documents = s.documents ∨
        ∃ d : Document, (processUrl env s url).documents = s.documents ++ [d])) :=
  processUrl_cases env s url

theorem scrape_aux_perm (env : String → UrlBehavior) (urls : List String) :
    ∀ s : ScrapeState,
      ((urls.foldl (processUrl env) s).processed ++ (urls.foldl (processUrl env) s).failed).Perm
        (s.processed ++ s.failed ++ urls) := by
  induction urls with
  | nil => intro s; simp
  | cons u us ih =>
    intro s
    rw [List.foldl_cons]
    refine (ih (processUrl env s u)).trans ?_
    rw [List.perm_iff_count]
    intro a
    rcases processUrl_cases env s u with ⟨hf, _, hp⟩ | ⟨hf, hp, _⟩ <;>
      · simp [hf, hp, List.count_append, List.count_cons]
        try omega

theorem scrape_aux_docs (env : String → UrlBehavior) (s : ScrapeState) (url : String) :
    ∃ t : List Document, (processUrl env s url).documents = s.documents ++ t := by
  rcases processUrl_cases env s url with ⟨_, hd, _⟩ | ⟨_, _, hd | ⟨d, hd⟩⟩
  · exact ⟨[], by simp [hd]⟩
  · exact ⟨[], by simp [hd]⟩
  · exact ⟨[d], hd⟩

/-- C4: `scrape` terminates with every input URL appended to exactly one
of `processed_urls` / `failed_urls` (their concatenation is a permutation
of the input, so the lengths add up), no per-URL exception escapes (the
embedding is total by construction), and each per-URL step only appends
to the Document list, so Documents accumulated before a later URL's
failure stay in the result set. -/
theorem scrape_partitions_urls (env : String → UrlBehavior) (urls : List String) :
    ((scrape env urls).processed ++ (scrape env urls).failed).Perm urls ∧
    (scrape env urls).processed.length + (scrape env urls).failed.length = urls.length ∧
    (∀ (s : ScrapeState) (url : String), ∃ t : List Document,
      (processUrl env s url).documents = s.documents ++ t) := by
  have hperm : ((scrape env urls).processed ++ (scrape env urls).failed).Perm urls := by
    simpa [scrape] using scrape_aux_perm env urls ⟨[], [], []⟩
  refine ⟨hperm, ?_, fun s url => scrape_aux_docs env s url⟩
  have hlen := hperm.length_eq
  simpa [List.length_append] using hlen

/-! ## Claims C1 and C2: edge insertion and the blocklist no-op -/

/-- C1: when the dequeued head of the queue is an unvisited URL ending in
a blocked extension such as `.jpg`, the blocklist check changes no state
(the inner `for`'s `continue` skips nothing), the URL is still appended to
`visited`, its links are still extracted with every edge added, and the
loop proceeds exactly as for any other URL. -/
theorem crawl_blocklist_noop
    (links : String → Option (List String)) (allowed : List String) (maxPages : Nat)
    (v vu : List String) (g : CrawlGraph) (u : String) (rest ls : List String)
    (hv : u ∉ v) (hvu : u ∉ vu) (hlen : v.length < maxPages)
    (hjpg : pyEndsWith u ".jpg" = true) (hls : links u = some ls) :
    (∀ s : CrawlState, blocklistCheck u s = s) ∧
    (crawlVisit links allowed ⟨u :: rest, v, vu, g⟩ u rest).visited = v ++ [u] ∧
    (∀ l ∈ ls, (u, l) ∈ (crawlVisit links allowed ⟨u :: rest, v, vu, g⟩ u rest).G.edges) ∧
    crawlLoop links allowed maxPages (u :: rest) v vu g =
      crawlLoop links allowed maxPages
        (crawlVisit links allowed ⟨u :: rest, v, vu, g⟩ u rest).queue
        (crawlVisit links allowed ⟨u :: rest, v, vu, g⟩ u rest).visited
        (crawlVisit links allowed ⟨u :: rest, v, vu, g⟩ u rest).visitedUrls
        (crawlVisit links allowed ⟨u :: rest, v, vu, g⟩ u rest).G := by
  refine ⟨fun s => blocklistCheck_eq u s,
    (crawlVisit_visited links allowed ⟨u :: rest, v, vu, g⟩ u rest).1,
    fun l hl => (crawlVisit_edges links allowed ⟨u :: rest, v, vu, g⟩ u rest ls hls l hl).1,
    ?_⟩
  conv_lhs => rw [crawlLoop]
  rw [if_pos hlen, if_neg (by simp [hv, hvu])]

theorem crawl_blocklist_noop_witness :
    pyEndsWith "http://ex.com/p.jpg" ".jpg" = true ∧
    ("http://ex.com/p.jpg" ∉ ([] : List String)) ∧
    (crawlVisit linksJpg ["ex.com"] ⟨["http://ex.com/p.jpg"], [], [], ⟨[], []⟩⟩
        "http://ex.com/p.jpg" []).visited = [] ++ ["http://ex.com/p.jpg"] ∧
    (∀ l ∈ ["http://ex.com/a", "http://other.org/b"],
      ("http://ex.com/p.jpg", l) ∈
        (crawlVisit linksJpg ["ex.com"] ⟨["http://ex.com/p.jpg"], [], [], ⟨[], []⟩⟩
          "http://ex.com/p.jpg" []).G.edges) := by
  have h := crawl_blocklist_noop linksJpg ["ex.com"] 5 [] [] ⟨[], []⟩
    "http://ex.com/p.jpg" [] ["http://ex.com/a", "http://other.org/b"]
    (by decide) (by decide) (by decide) (by decide) (by decide)
  exact ⟨by decide, by decide, h.2.1, h.2.2.1⟩

/-- C2: for every processed page, every extracted link produces the edge
`(current_url, link)` and the link appears among the graph's nodes whether
or not it passes the domain filter; the queue is extended only by links
passing the filter, so links failing it are never enqueued. -/
theorem crawl_edges_regardless_of_domain
    (links : String → Option (List String)) (allowed : List String)
    (s : CrawlState) (u : String) (rest ls : List String)
    (hls : links u = some ls) :
    (∀ l ∈ ls, (u, l) ∈ (crawlVisit links allowed s u rest).G.edges ∧
      l ∈ (crawlVisit links allowed s u rest).G.nodes) ∧
    (∃ newq, (crawlVisit links allowed s u rest).queue = rest ++ newq ∧
      ∀ l ∈ newq, isAllowedDomain l allowed = true) := by
  refine ⟨crawlVisit_edges links allowed s u rest ls hls, ?_⟩
  refine ⟨enqueued allowed (s.visited ++ [u]) s.visitedUrls ls,
    crawlVisit_queue links allowed s u rest ls hls, ?_⟩
  intro l hl
  unfold enqueued at hl
  have := List.of_mem_filter hl
  simp only [Bool.and_eq_true] at this
  exact this.1.1

theorem crawl_edges_regardless_of_domain_witness :
    linksJpg "http://ex.com/p.jpg" = some ["http://ex.com/a", "http://other.org/b"] ∧
    (("http://ex.com/p.jpg", "http://other.org/b") ∈
      (crawlVisit linksJpg ["ex.com"] ⟨["http://ex.com/p.jpg"], [], [], ⟨[], []⟩⟩
        "http://ex.com/p.jpg" []).G.edges ∧
      "http://other.org/b" ∈
        (crawlVisit linksJpg ["ex.com"] ⟨["http://ex.com/p.jpg"], [], [], ⟨[], []⟩⟩
          "http://ex.com/p.jpg" []).G.nodes) ∧
    (∃ newq,
      (crawlVisit linksJpg ["ex.com"] ⟨["http://ex.com/p.jpg"], [], [], ⟨[], []⟩⟩
        "http://ex.com/p.jpg" []).queue = [] ++ newq ∧
      ∀ l ∈ newq, isAllowedDomain l ["ex.com"] = true) := by
  have h := crawl_edges_regardless_of_domain linksJpg ["ex.com"]
    ⟨["http://ex.com/p.jpg"], [], [], ⟨[], []⟩⟩ "http://ex.com/p.jpg" []
    ["http://ex.com/a", "http://other.org/b"] (by decide)
  exact ⟨by decide, h.1 "http://other.org/b" (by decide), h.2⟩

/-! ## Claim C6: crawl invariants and BFS order -/

theorem crawlLoop_invariant (links : String → Option (List String)) (allowed : List String)
    (maxPages : Nat) (q v vu : List String) (g : CrawlGraph) :
    v.length ≤ maxPages → v.Nodup → (∀ x ∈ v, x ∉ vu) →
    (crawlLoop links allowed maxPages q v vu g).visitedUrls = vu ∧
    (crawlLoop links allowed maxPages q v vu g).visited.length ≤ maxPages ∧
    (crawlLoop links allowed maxPages q v vu g).visited.Nodup ∧
    (∀ x ∈ (crawlLoop links allowed maxPages q v vu g).visited, x ∉ vu) ∧
    (∃ t, (crawlLoop links allowed maxPages q v vu g).visited = v ++ t) := by
  induction q, v, vu, g using crawlLoop.induct links allowed maxPages with
  | case1 v vu g =>
    intro hlen hnd hdisj
    rw [crawlLoop]
    exact ⟨rfl, hlen, hnd, hdisj, ⟨[], by simp⟩⟩
  | case2 u rest v vu g hv hmem ih =>
    intro hlen hnd hdisj
    rw [crawlLoop, if_pos hv, if_pos hmem]
    exact ih hlen hnd hdisj
  | case3 u rest v vu g hv hmem ih =>
    intro hlen hnd hdisj
    rw [crawlLoop, if_pos hv, if_neg hmem]
    push_neg at hmem
    have hvis := crawlVisit_visited links allowed ⟨u :: rest, v, vu, g⟩ u rest
    simp only [hvis.1, hvis.2] at ih ⊢
    have h1 : (v ++ [u]).length ≤ maxPages := by simp; omega
    have h2 : (v ++ [u]).Nodup := by
      refine List.Nodup.append hnd (List.nodup_singleton u) ?_
      intro a hav hau
      simp only [List.mem_singleton] at hau
      exact hmem.1 (hau ▸ hav)
    have h3 : ∀ x ∈ v ++ [u], x ∉ vu := by
      intro x hx
      rcases List.mem_append.1 hx with h | h
      · exact hdisj x h
      · simp at h; exact h ▸ hmem.2
    have hrec := ih h1 h2 h3
    refine ⟨hrec.1, hrec.2.1, hrec.2.2.1, hrec.2.2.2.1, ?_⟩
    rcases hrec.2.2.2.2 with ⟨t, ht⟩
    exact ⟨[u] ++ t, by simp [ht]⟩
  | case4 u rest v vu g hv =>
    intro hlen hnd hdisj
    rw [crawlLoop, if_neg hv]
    exact ⟨rfl, hlen, hnd, hdisj, ⟨[], by simp⟩⟩

theorem foldl_insertNew_append (l : List String) :
    ∀ base : List String, l.Nodup → (∀ x ∈ l, x ∉ base) →
      l.foldl insertNew base = base ++ l := by
  induction l with
  | nil => intro base _ _; simp
  | cons a as ih =>
    intro base hnd hdisj
    rw [List.foldl_cons]
    have h1 : insertNew base a = base ++ [a] := by
      unfold insertNew; rw [if_neg (hdisj a (by simp))]
    rw [h1, ih (base ++ [a]) (List.Nodup.of_cons hnd) ?_]
    · simp
    · intro x hx
      simp only [List.mem_append, List.mem_singleton]
      rintro (hb | hxa)
      · exact hdisj x (List.mem_cons_of_mem a hx) hb
      · exact (List.nodup_cons.1 hnd).1 (hxa ▸ hx)

/-- C6: per seed, `crawl` marks at most `max_pages` URLs visited, never
re-processes a URL from the seed-local or global visited sets (the visited
list stays duplicate-free and disjoint from `visited_urls`), merges the
seed-local visited list into `visited_urls` on completion, and dequeues
FIFO — on the fully connected three-page site with `max_pages = 2` the
visit order is the seed first, then its first discovered neighbour. -/
theorem crawl_bfs_invariants (links : String → Option (List String))
    (gen : GenState) (seed : String) (maxPages : Nat) :
    (crawlRun links gen seed maxPages).visited.length ≤ maxPages ∧
    (crawlRun links gen seed maxPages).visited.Nodup ∧
    (∀ x ∈ (crawlRun links gen seed maxPages).visited, x ∉ gen.visitedUrls) ∧
    (crawl links gen seed maxPages).visitedUrls =
      gen.visitedUrls ++ (crawlRun links gen seed maxPages).visited ∧
    (crawlRun linksBfs ⟨[], [], ⟨[], []⟩⟩ "http://ex.com/a" 2).visited =
      ["http://ex.com/a", "http://ex.com/b"] := by
  have hinv := crawlLoop_invariant links (insertNew gen.allowedDomains (netlocStr seed))
    maxPages [seed] [] gen.visitedUrls gen.G (by simp) (by simp) (by simp)
  have hrunEq : crawlRun links gen seed maxPages =
      crawlLoop links (insertNew gen.allowedDomains (netlocStr seed)) maxPages
        [seed] [] gen.visitedUrls gen.G := rfl
  rw [hrunEq]
  refine ⟨hinv.2.1, hinv.2.2.1, hinv.2.2.2.1, ?_, ?_⟩
  · show (crawlRun links gen seed maxPages).visited.foldl insertNew gen.visitedUrls = _
    rw [hrunEq]
    exact foldl_insertNew_append _ _ hinv.2.2.1 hinv.2.2.2.1
  · have h0 : crawlRun linksBfs ⟨[], [], ⟨[], []⟩⟩ "http://ex.com/a" 2 =
        crawlLoop linksBfs ["ex.com"] 2 ["http://ex.com/a"] [] [] ⟨[], []⟩ := by
      rw [crawlRun]; rfl
    rw [h0]
    have h1 : crawlLoop linksBfs ["ex.com"] 2 ["http://ex.com/a"] [] [] ⟨[], []⟩ =
        crawlLoop linksBfs ["ex.com"] 2
          ["http://ex.com/b", "http://ex.com/c"] ["http://ex.com/a"] []
          ⟨["http://ex.com/a", "http://ex.com/b", "http://ex.com/c"],
           [("http://ex.com/a", "http://ex.com/b"), ("http://ex.com/a", "http://ex.com/c")]⟩ := by
      rw [crawlLoop, if_pos (by decide), if_neg (by decide)]; rfl
    rw [h1]
    have h2 : crawlLoop linksBfs ["ex.com"] 2
          ["http://ex.com/b", "http://ex.com/c"] ["http://ex.com/a"] []
          ⟨["http://ex.com/a", "http://ex.com/b", "http://ex.com/c"],
           [("http://ex.com/a", "http://ex.com/b"), ("http://ex.com/a", "http://ex.com/c")]⟩ =
        crawlLoop linksBfs ["ex.com"] 2
          ["http://ex.com/c", "http://ex.com/c"] ["http://ex.com/a", "http://ex.com/b"] []
          ⟨["http://ex.com/a", "http://ex.com/b", "http://ex.com/c"],
           [("http://ex.com/a", "http://ex.com/b"), ("http://ex.com/a", "http://ex.com/c"),
            ("http://ex.com/b", "http://ex.com/a"), ("http://ex.com/b", "http://ex.com/c")]⟩ := by
      rw [crawlLoop, if_pos (by decide), if_neg (by decide)]; rfl
    rw [h2, crawlLoop, if_neg (by decide)]

theorem crawl_bfs_invariants_witness :
    ("http://ex.com/a" ∈ (crawlRun linksBfs ⟨[], [], ⟨[], []⟩⟩ "http://ex.com/a" 2).visited →
      "http://ex.com/a" ∉ (⟨[], [], ⟨[], []⟩⟩ : GenState).visitedUrls) ∧
    (crawlRun linksBfs ⟨[], [], ⟨[], []⟩⟩ "http://ex.com/a" 2).visited.length ≤ 2 ∧
    (crawlRun linksBfs ⟨[], [], ⟨[], []⟩⟩ "http://ex.com/a" 2).visited =
      ["http://ex.com/a", "http://ex.com/b"] := by
  have h := crawl_bfs_invariants linksBfs ⟨[], [], ⟨[], []⟩⟩ "http://ex.com/a" 2
  exact ⟨h.2.2.1 "http://ex.com/a", h.1, h.2.2.2.2⟩

/-! ## Claim C5: the `articleBody` shortcut -/

/-- C5 counterexample: `_extract_content_blocks` looks for
`soup.find("div", itemprop="articleBody")`; a page whose only
`itemprop="articleBody"` carrier is a `span` takes no shortcut — here the
result is `[]`, not one region of score 100 as the claim states for "an
element" carrying the attribute. -/
theorem articleBody_non_div_no_shortcut :
    (elemsOfL spanBodyPage).any
      (fun n => decide (n.attrVals "itemprop" = some ["articleBody"])) = true ∧
    extractContentBlocks spanBodyPage = [] := by
  constructor
  · rfl
  · rfl

/-- C5 (amended): for every cleaned page containing a `div` with
`itemprop="articleBody"`, `_extract_content_blocks` returns exactly one
scored region — the first such div, with score 100 — and no semantic-tag
scoring is performed; elements other than `div` carrying the attribute do
not trigger the shortcut. -/
theorem articleBody_div_shortcut (page : List HNode) (d : HNode)
    (h : findElem isArticleBodyDiv page = some d) :
    extractContentBlocks page = [(100, d)] := by
  unfold extractContentBlocks
  rw [h]

theorem articleBody_div_shortcut_witness :
    findElem isArticleBodyDiv articleBodyPage = some articleBodyDivEx ∧
    extractContentBlocks articleBodyPage = [(100, articleBodyDivEx)] :=
  ⟨rfl, articleBody_div_shortcut articleBodyPage articleBodyDivEx rfl⟩

/-! ## Claim C10: title extraction after cleaning -/

theorem elemsOfL_append (l1 l2 : List HNode) :
    elemsOfL (l1 ++ l2) = elemsOfL l1 ++ elemsOfL l2 := by
  induction l1 with
  | nil => simp [elemsOfL]
  | cons c cs ih => rw [List.cons_append, elemsOfL, elemsOfL, ih, List.append_assoc]

theorem stripElems_preserve (p : HNode → Bool) (P : String → Prop) :
    (∀ t : HNode, (∀ n ∈ elemsOfN t, P n.tag) →
      ∀ n ∈ elemsOfL (stripElemsN p t), P n.tag) ∧
    (∀ l : List HNode, (∀ n ∈ elemsOfL l, P n.tag) →
      ∀ n ∈ elemsOfL (stripElemsL p l), P n.tag) := by
  refine stripElemsN.mutual_induct p
    (fun t => (∀ n ∈ elemsOfN t, P n.tag) → ∀ n ∈ elemsOfL (stripElemsN p t), P n.tag)
    (fun l => (∀ n ∈ elemsOfL l, P n.tag) → ∀ n ∈ elemsOfL (stripElemsL p l), P n.tag)
    ?_ ?_ ?_ ?_ ?_
  · intro s _ n hn
    simp [stripElemsN, elemsOfL, elemsOfN] at hn
  · intro t a cs hp _ n hn
    rw [stripElemsN, if_pos hp] at hn
    simp [elemsOfL] at hn
  · intro t a cs hp ih horig n hn
    rw [stripElemsN, if_neg hp] at hn
    simp only [elemsOfL, elemsOfN, List.append_nil] at hn
    rcases List.mem_cons.1 hn with h | h
    · subst h
      exact horig (.elem t a cs) (by simp [elemsOfN])
    · refine ih (fun m hm => horig m ?_) n h
      simp only [elemsOfN, List.mem_cons]
      exact Or.inr hm
  · intro _ n hn
    simp [stripElemsL, elemsOfL] at hn
  · intro c cs ihc ihcs horig n hn
    rw [stripElemsL, elemsOfL_append] at hn
    have hsplit : ∀ m ∈ elemsOfN c, P m.tag := by
      intro m hm; exact horig m (by rw [elemsOfL, List.mem_append]; exact Or.inl hm)
    have hsplit2 : ∀ m ∈ elemsOfL cs, P m.tag := by
      intro m hm; exact horig m (by rw [elemsOfL, List.mem_append]; exact Or.inr hm)
    rcases List.mem_append.1 hn with h | h
    · exact ihc hsplit n h
    · exact ihcs hsplit2 n h

theorem strip_removedTags :
    (∀ t : HNode, ∀ n ∈ elemsOfL (stripElemsN (fun m => removedTags.contains m.tag) t),
      removedTags.contains n.tag = false ∧ (titlesOnlyInHeadN t = true → n.tag ≠ "title")) ∧
    (∀ l : List HNode, ∀ n ∈ elemsOfL (stripElemsL (fun m => removedTags.contains m.tag) l),
      removedTags.contains n.tag = false ∧ (titlesOnlyInHeadL l = true → n.tag ≠ "title")) := by
  refine stripElemsN.mutual_induct (fun m => removedTags.contains m.tag)
    (fun t => ∀ n ∈ elemsOfL (stripElemsN (fun m => removedTags.contains m.tag) t),
      removedTags.contains n.tag = false ∧ (titlesOnlyInHeadN t = true → n.tag ≠ "title"))
    (fun l => ∀ n ∈ elemsOfL (stripElemsL (fun m => removedTags.contains m.tag) l),
      removedTags.contains n.tag = false ∧ (titlesOnlyInHeadL l = true → n.tag ≠ "title"))
    ?_ ?_ ?_ ?_ ?_
  · intro s n hn
    simp [stripElemsN, elemsOfL, elemsOfN] at hn
  · intro t a cs hp n hn
    rw [stripElemsN, if_pos hp] at hn
    simp [elemsOfL] at hn
  · intro t a cs hp ih n hn
    rw [stripElemsN, if_neg hp] at hn
    simp only [elemsOfL, elemsOfN, List.append_nil] at hn
    have hhead : t ≠ "head" := by
      intro h
      subst h
      refine hp ?_
      show removedTags.contains (HNode.elem "head" a cs).tag = true
      simp [HNode.tag, removedTags]
    rcases List.mem_cons.1 hn with h | h
    · subst h
      refine ⟨by simpa using hp, ?_⟩
      intro hwf
      rw [titlesOnlyInHeadN, if_neg hhead] at hwf
      intro htag
      simp only [HNode.tag] at htag
      rw [htag] at hwf
      simp at hwf
    · refine ⟨(ih n h).1, ?_⟩
      intro hwf
      rw [titlesOnlyInHeadN, if_neg hhead] at hwf
      by_cases htt : t = "title"
      · rw [if_pos htt] at hwf; exact absurd hwf (by simp)
      · rw [if_neg htt] at hwf
        exact (ih n h).2 hwf
  · intro n hn
    simp [stripElemsL, elemsOfL] at hn
  · intro c cs ihc ihcs n hn
    rw [stripElemsL, elemsOfL_append] at hn
    rcases List.mem_append.1 hn with h | h
    · refine ⟨(ihc n h).1, fun hwf => (ihc n h).2 ?_⟩
      rw [titlesOnlyInHeadL, Bool.and_eq_true] at hwf
      exact hwf.1
    · refine ⟨(ihcs n h).1, fun hwf => (ihcs n h).2 ?_⟩
      rw [titlesOnlyInHeadL, Bool.and_eq_true] at hwf
      exact hwf.2

theorem foldl_strip_preserve (P : String → Prop) (pats : List String) :
    ∀ pg : List HNode, (∀ n ∈ elemsOfL pg, P n.tag) →
      ∀ n ∈ elemsOfL (pats.foldl
        (fun pg pat => stripElemsL (idMatches pat) (stripElemsL (classMatches pat) pg)) pg),
        P n.tag := by
  induction pats with
  | nil => intro pg h; simpa using h
  | cons pat ps ih =>
    intro pg h
    rw [List.foldl_cons]
    exact ih _ ((stripElems_preserve (idMatches pat) P).2 _
      ((stripElems_preserve (classMatches pat) P).2 _ h))

theorem cleanHtml_props (page : List HNode) :
    (∀ n ∈ elemsOfL (cleanHtml page), removedTags.contains n.tag = false) ∧
    (titlesOnlyInHeadL page = true → ∀ n ∈ elemsOfL (cleanHtml page), n.tag ≠ "title") := by
  constructor
  · intro n hn
    unfold cleanHtml at hn
    refine foldl_strip_preserve (fun tg => removedTags.contains tg = false) noisePatterns _ ?_ n hn
    intro m hm
    exact ((stripElems_preserve styleHidden
      (fun tg => removedTags.contains tg = false)).2 _
      (fun k hk => (strip_removedTags.2 page k hk).1) m hm)
  · intro hwf n hn
    unfold cleanHtml at hn
    refine foldl_strip_preserve (fun tg => tg ≠ "title") noisePatterns _ ?_ n hn
    intro m hm
    exact ((stripElems_preserve styleHidden (fun tg => tg ≠ "title")).2 _
      (fun k hk => (strip_removedTags.2 page k hk).2 hwf) m hm)

/-- C10: `_clean_html` decomposes every `head` and `meta` element before
`_extract_title` runs, so the cleaned page has no `meta` element (the
`og:title` branch never fires) and — when the page is well formed, i.e.
every `title` element sits inside a `head` — no `title` element either;
the returned title is therefore the first surviving `h1`'s text rendered
as a heading line, or the empty string when no `h1` survives (an `h1`
whose text strips to empty also renders as the empty string). -/
theorem extract_title_after_clean (page : List HNode) :
    (∀ n ∈ elemsOfL (cleanHtml page), n.tag ≠ "meta") ∧
    (titlesOnlyInHeadL page = true →
      (∀ n ∈ elemsOfL (cleanHtml page), n.tag ≠ "title") ∧
      extractTitle (cleanHtml page) =
        (match findElem (fun n => n.tag = "h1") (cleanHtml page) with
         | some h => renderHeading (pyStrip (getTextAll h))
         | none => "")) := by
  have hmeta : ∀ n ∈ elemsOfL (cleanHtml page), n.tag ≠ "meta" := by
    intro n hn htag
    have hcontain := (cleanHtml_props page).1 n hn
    rw [htag] at hcontain
    simp [removedTags] at hcontain
  refine ⟨hmeta, fun hwf => ⟨(cleanHtml_props page).2 hwf, ?_⟩⟩
  have htitle := (cleanHtml_props page).2 hwf
  have hfindMeta : findElem (fun n => n.tag = "meta" &&
      decide (n.attrVals "property" = some ["og:title"])) (cleanHtml page) = none := by
    rw [findElem, List.find?_eq_none]
    intro n hn
    simp only [Bool.and_eq_true, decide_eq_true_eq, not_and]
    intro h1
    exact absurd h1 (hmeta n hn)
  have hfindTitle : findElem (fun n => n.tag = "title") (cleanHtml page) = none := by
    rw [findElem, List.find?_eq_none]
    intro n hn
    simp only [decide_eq_true_eq]
    exact htitle n hn
  unfold extractTitle
  rw [hfindMeta, hfindTitle]
  cases findElem (fun n => n.tag = "h1") (cleanHtml page) with
  | none => simp [renderHeading]
  | some h => rfl

theorem extract_title_after_clean_witness :
    titlesOnlyInHeadL titlePageEx = true ∧
    (∀ n ∈ elemsOfL (cleanHtml titlePageEx), n.tag ≠ "meta") ∧
    extractTitle (cleanHtml titlePageEx) = "# Main heading\n\n" := by
  have h := extract_title_after_clean titlePageEx
  refine ⟨by decide, h.1, ?_⟩
  have h2 := (h.2 (by decide)).2
  rw [h2]
  rfl

/-! ## Claims C7 and C9: deduplication -/

theorem splitNN_ne_nil (cs : List Char) : splitNN cs ≠ [] := by
  induction cs using splitNN.induct with
  | case1 => simp [splitNN]
  | case2 cs ih => rw [splitNN.eq_2]; exact ih
  | case3 cs h ih => rw [splitNN.eq_3 cs h]; simp
  | case4 cs h2 h1 ih => rw [splitNN.eq_4 cs h2 h1]; simp
  | case5 c cs h2 h1 h0 ih => rw [splitNN.eq_5 c cs h2 h1 h0]; simp

theorem splitNN_nl_cons (cs : List Char) (h : cs.headD ' ' ≠ '\n') :
    splitNN ('\n' :: cs) = ('\n' :: (splitNN cs).headD []) :: (splitNN cs).tail := by
  refine splitNN.eq_4 cs ?_ ?_ <;> intro cs1 he <;> subst he <;> simp at h

theorem splitNN_cons_ne (c : Char) (cs : List Char) (h : c ≠ '\n') :
    splitNN (c :: cs) = (c :: (splitNN cs).headD []) :: (splitNN cs).tail :=
  splitNN.eq_5 c cs (fun _ hc _ => absurd hc h) (fun _ hc _ => absurd hc h)
    (fun hc => absurd hc h)

theorem hasNN_false_cons (c : Char) (cs : List Char) (h : hasNN (c :: cs) = false) :
    hasNN cs = false ∧ (c = '\n' → cs.headD ' ' ≠ '\n') := by
  by_cases hc : c = '\n'
  · subst hc
    cases cs with
    | nil => exact ⟨rfl, by simp⟩
    | cons d tl =>
      by_cases hd : d = '\n'
      · subst hd
        rw [hasNN.eq_1] at h
        cases h
      · rw [hasNN.eq_2 '\n' (d :: tl)
          (fun tail _ he => absurd (List.cons.injEq .. ▸ he) (by simp [hd]))] at h
        exact ⟨h, fun _ => by simpa using hd⟩
  · rw [hasNN.eq_2 c cs (fun _ h1 _ => absurd h1 hc)] at h
    constructor
    · exact h
    · intro h1; exact absurd h1 hc

theorem headD_cons_tail (l : List (List Char)) (h : l ≠ []) : (l.headD []) :: l.tail = l := by
  cases l with
  | nil => exact absurd rfl h
  | cons a t => rfl

theorem hasNN_false_intro (c : Char) (cs : List Char) (h : hasNN cs = false)
    (hc : c = '\n' → cs.headD ' ' ≠ '\n') : hasNN (c :: cs) = false := by
  by_cases hcc : c = '\n'
  · subst hcc
    cases cs with
    | nil => rfl
    | cons d tl =>
      have hd : d ≠ '\n' := by simpa using hc rfl
      rw [hasNN.eq_2 '\n' (d :: tl)
        (fun tail _ he => absurd (List.cons.injEq .. ▸ he) (by simp [hd]))]
      exact h
  · rw [hasNN.eq_2 c cs (fun _ h1 _ => absurd h1 hcc)]
    exact h

theorem piecesOK_cons_of_nl (H : List Char) (T : List (List Char))
    (h : PiecesOK (('\n' :: H) :: T)) : PiecesOK ([] :: H :: T) := by
  obtain ⟨hb, hc, hd⟩ := h
  have hH := hasNN_false_cons '\n' H (hb ('\n' :: H) (List.mem_cons_self _ _))
  have hHhead : H.headD ' ' ≠ '\n' := hH.2 rfl
  have hHnn : hasNN H = false := hH.1
  refine ⟨?_, ?_, ?_⟩
  · intro p hp
    rcases List.mem_cons.1 hp with h1 | h1
    · subst h1; rfl
    · rcases List.mem_cons.1 h1 with h2 | h2
      · subst h2; exact hHnn
      · exact hb p (List.mem_cons_of_mem _ h2)
  · intro p hp
    rcases List.mem_cons.1 hp with h1 | h1
    · subst h1; exact hHhead
    · exact hc p h1
  · intro p hp
    cases T with
    | nil =>
      simp at hp
      subst hp
      simp
    | cons t ts =>
      rw [List.dropLast_cons₂, List.dropLast_cons₂] at hp
      rcases List.mem_cons.1 hp with h1 | h1
      · subst h1; simp
      · rcases List.mem_cons.1 h1 with h2 | h2
        · subst h2
          have := hd ('\n' :: p) (by rw [List.dropLast_cons₂]; exact List.mem_cons_self _ _)
          cases p with
          | nil => simp
          | cons a as => simpa using this
        · exact hd p (by rw [List.dropLast_cons₂]; exact List.mem_cons_of_mem _ h2)

theorem piecesOK_prepend (c : Char) (H : List Char) (T : List (List Char))
    (hc : c ≠ '\n' ∨ (H ≠ [] ∧ H.headD ' ' ≠ '\n'))
    (h : PiecesOK (H :: T)) : PiecesOK ((c :: H) :: T) := by
  obtain ⟨hb, hcc, hd⟩ := h
  have hHnn := hb H (List.mem_cons_self _ _)
  refine ⟨?_, ?_, ?_⟩
  · intro p hp
    rcases List.mem_cons.1 hp with h1 | h1
    · subst h1
      refine hasNN_false_intro c H hHnn ?_
      intro hcn
      rcases hc with h2 | h2
      · exact absurd hcn h2
      · exact h2.2
    · exact hb p (List.mem_cons_of_mem _ h1)
  · intro p hp
    exact hcc p hp
  · intro p hp
    cases T with
    | nil => simp at hp
    | cons t ts =>
      rw [List.dropLast_cons₂] at hp
      rcases List.mem_cons.1 hp with h1 | h1
      · subst h1
        have hH := hd H (by rw [List.dropLast_cons₂]; exact List.mem_cons_self _ _)
        cases H with
        | nil =>
          rcases hc with h2 | h2
          · simpa using h2
          · exact absurd rfl h2.1
        | cons a as => simpa using hH
      · exact hd p (by rw [List.dropLast_cons₂]; exact List.mem_cons_of_mem _ h1)

theorem splitNN_props (cs : List Char) : PiecesOK (splitNN cs) := by
  induction cs using splitNN.induct with
  | case1 =>
    rw [show splitNN [] = [[]] from rfl]
    refine ⟨?_, ?_, ?_⟩ <;> intro p hp
    · simp at hp; subst hp; rfl
    · simp at hp
    · simp at hp
  | case2 cs ih =>
    rw [splitNN.eq_2]
    exact ih
  | case3 cs h ih =>
    have hhd : cs.headD ' ' ≠ '\n' := by
      intro hcon
      cases cs with
      | nil => simp at hcon
      | cons d tl => exact h tl (by simpa using hcon)
    rw [splitNN.eq_3 cs h, splitNN_nl_cons cs hhd]
    simp only [List.headD_cons, List.tail_cons]
    apply piecesOK_cons_of_nl
    rw [← splitNN_nl_cons cs hhd]
    exact ih
  | case4 cs h2 h1 ih =>
    cases cs with
    | nil =>
      rw [show splitNN ['\n'] = [['\n']] from rfl]
      refine ⟨?_, ?_, ?_⟩ <;> intro p hp
      · simp at hp; subst hp; rfl
      · simp at hp
      · simp at hp
    | cons d tl =>
      have hd : d ≠ '\n' := by
        intro hcon
        exact h1 tl (by simp [hcon])
      have hhd : (d :: tl).headD ' ' ≠ '\n' := by simpa using hd
      rw [splitNN_nl_cons (d :: tl) hhd]
      have hne := splitNN_ne_nil (d :: tl)
      rw [← headD_cons_tail (splitNN (d :: tl)) hne] at ih
      refine piecesOK_prepend '\n' ((splitNN (d :: tl)).headD []) (splitNN (d :: tl)).tail ?_ ih
      right
      rw [splitNN_cons_ne d tl hd]
      exact ⟨by simp, by simpa using hd⟩
  | case5 c cs h2 h1 h0 ih =>
    have hcn : c ≠ '\n' := fun hch => h0 hch
    rw [splitNN_cons_ne c cs hcn]
    have hne := splitNN_ne_nil cs
    rw [← headD_cons_tail (splitNN cs) hne] at ih
    exact piecesOK_prepend c _ _ (Or.inl hcn) ih

theorem collapseNL_of_no_nn (cs : List Char) (h : hasNN cs = false) : collapseNL cs = cs := by
  induction cs with
  | nil => rfl
  | cons c cs ih =>
    have h2 := hasNN_false_cons c cs h
    have hcond : ∀ cs1, c = '\n' → cs = '\n' :: '\n' :: cs1 → False := by
      intro cs1 hc hcs
      subst hcs
      exact h2.2 hc (by simp)
    rw [collapseNL.eq_2 c cs hcond, ih h2.1]

theorem splitNN_of_no_nn (cs : List Char) (h : hasNN cs = false) : splitNN cs = [cs] := by
  induction cs with
  | nil => rfl
  | cons c cs ih =>
    have h2 := hasNN_false_cons c cs h
    by_cases hc : c = '\n'
    · subst hc
      rw [splitNN_nl_cons cs (h2.2 rfl), ih h2.1]
      rfl
    · rw [splitNN_cons_ne c cs hc, ih h2.1]
      rfl

theorem collapseNL_sep (x : List Char) : ∀ t : List Char, hasNN x = false →
    x.getLast? ≠ some '\n' → t.headD ' ' ≠ '\n' →
    collapseNL (x ++ '\n' :: '\n' :: t) = x ++ '\n' :: '\n' :: collapseNL t := by
  induction x with
  | nil =>
    intro t _ _ ht
    rw [List.nil_append]
    have e1 : collapseNL ('\n' :: '\n' :: t) = '\n' :: collapseNL ('\n' :: t) := by
      refine collapseNL.eq_2 '\n' ('\n' :: t) ?_
      intro cs1 _ he
      have h3 : t = '\n' :: cs1 := by injection he
      subst h3
      simp at ht
    have e2 : collapseNL ('\n' :: t) = '\n' :: collapseNL t := by
      refine collapseNL.eq_2 '\n' t ?_
      intro cs1 _ he
      subst he
      simp at ht
    rw [e1, e2]
    rfl
  | cons a x' ih =>
    intro t hx hlast ht
    have h2 := hasNN_false_cons a x' hx
    rw [List.cons_append]
    have ecnd : ∀ cs1, a = '\n' → x' ++ '\n' :: '\n' :: t = '\n' :: '\n' :: cs1 → False := by
      intro cs1 ha he
      cases x' with
      | nil =>
        subst ha
        simp at hlast
      | cons b x'' =>
        have hb : b ≠ '\n' := by simpa using h2.2 ha
        rw [List.cons_append] at he
        injection he with hb' _
        exact hb hb'
    rw [collapseNL.eq_2 a (x' ++ '\n' :: '\n' :: t) ecnd]
    cases x' with
    | nil =>
      rw [ih t rfl (by simp) ht]
      rfl
    | cons b x'' =>
      rw [List.getLast?_cons_cons] at hlast
      rw [ih t h2.1 hlast ht]
      rfl

theorem splitNN_sep (x : List Char) : ∀ t : List Char, hasNN x = false →
    x.getLast? ≠ some '\n' → t.headD ' ' ≠ '\n' →
    splitNN (x ++ '\n' :: '\n' :: t) = x :: splitNN t := by
  induction x with
  | nil =>
    intro t _ _ ht
    rw [List.nil_append]
    have hcond : ∀ cs1, t = '\n' :: cs1 → False := by
      intro cs1 he
      subst he
      simp at ht
    rw [splitNN.eq_3 t hcond, splitNN_nl_cons t ht]
    simp only [List.headD_cons, List.tail_cons]
    rw [headD_cons_tail (splitNN t) (splitNN_ne_nil t)]
  | cons a x' ih =>
    intro t hx hlast ht
    have h2 := hasNN_false_cons a x' hx
    rw [List.cons_append]
    by_cases ha : a = '\n'
    · subst ha
      cases x' with
      | nil => simp at hlast
      | cons b x'' =>
        have hb : b ≠ '\n' := by simpa using h2.2 rfl
        have hhd : ((b :: x'') ++ '\n' :: '\n' :: t).headD ' ' ≠ '\n' := by simpa using hb
        rw [List.getLast?_cons_cons] at hlast
        rw [splitNN_nl_cons _ hhd, ih t h2.1 hlast ht]
        simp only [List.headD_cons, List.tail_cons]
    · rw [splitNN_cons_ne a _ ha]
      cases x' with
      | nil =>
        rw [ih t rfl (by simp) ht]
        simp only [List.headD_cons, List.tail_cons]
      | cons b x'' =>
        rw [List.getLast?_cons_cons] at hlast
        rw [ih t h2.1 hlast ht]
        simp only [List.headD_cons, List.tail_cons]

theorem joinNN_headD (y : List Char) (R : List (List Char)) (hy : y ≠ []) :
    (joinNN (y :: R)).headD ' ' = y.headD ' ' := by
  cases R with
  | nil => rfl
  | cons z R' =>
    cases y with
    | nil => exact absurd rfl hy
    | cons c ys => rfl

theorem join_roundtrip (L : List (List Char)) :
    PiecesOK L → (∀ p ∈ L.tail, p ≠ []) → L ≠ [] →
    collapseNL (joinNN L) = joinNN L ∧ splitNN (joinNN L) = L := by
  induction L with
  | nil => intro _ _ h; exact absurd rfl h
  | cons x L' ih =>
    intro hOK hne2 _
    obtain ⟨hb, hc, hd⟩ := hOK
    cases L' with
    | nil =>
      refine ⟨collapseNL_of_no_nn x (hb x (List.mem_cons_self _ _)), ?_⟩
      rw [show joinNN [x] = x from rfl, splitNN_of_no_nn x (hb x (List.mem_cons_self _ _))]
    | cons y L'' =>
      have hy : y ≠ [] := hne2 y (List.mem_cons_self _ _)
      have hyh : y.headD ' ' ≠ '\n' := hc y (List.mem_cons_self _ _)
      have ht : (joinNN (y :: L'')).headD ' ' ≠ '\n' := by
        rw [joinNN_headD y L'' hy]; exact hyh
      have hxlast : x.getLast? ≠ some '\n' := by
        refine hd x ?_
        rw [List.dropLast_cons₂]
        exact List.mem_cons_self _ _
      have hOK' : PiecesOK (y :: L'') := by
        refine ⟨?_, ?_, ?_⟩
        · intro p hp; exact hb p (List.mem_cons_of_mem _ hp)
        · intro p hp; exact hc p (List.mem_cons_of_mem _ hp)
        · intro p hp
          refine hd p ?_
          rw [List.dropLast_cons₂]
          exact List.mem_cons_of_mem _ hp
      have hne2' : ∀ p ∈ (y :: L'').tail, p ≠ [] := by
        intro p hp; exact hne2 p (List.mem_cons_of_mem _ hp)
      have ihr := ih hOK' hne2' (by simp)
      have hjoin : joinNN (x :: y :: L'') = x ++ '\n' :: '\n' :: joinNN (y :: L'') := rfl
      rw [hjoin]
      constructor
      · rw [collapseNL_sep x (joinNN (y :: L'')) (hb x (List.mem_cons_self _ _)) hxlast ht,
          ihr.1]
      · rw [splitNN_sep x (joinNN (y :: L'')) (hb x (List.mem_cons_self _ _)) hxlast ht,
          ihr.2]

theorem dedupParas_sublist (ps : List String) :
    ∀ seen : List String, (dedupParas seen ps).1.Sublist ps := by
  induction ps with
  | nil => intro seen; simp [dedupParas]
  | cons p ps ih =>
    intro seen
    rw [dedupParas]
    split
    · exact List.Sublist.cons₂ p (ih _)
    · exact List.Sublist.cons p (ih seen)

theorem dedupParas_kept_long (ps : List String) :
    ∀ seen : List String, ∀ p ∈ (dedupParas seen ps).1, (normalizeText p).length > 20 := by
  induction ps with
  | nil => intro seen p hp; simp [dedupParas] at hp
  | cons q ps ih =>
    intro seen p hp
    rw [dedupParas] at hp
    split at hp
    · next hcond =>
      rcases List.mem_cons.1 hp with h1 | h1
      · subst h1; exact hcond.2.2
      · exact ih _ p h1
    · exact ih seen p hp

theorem dedupParas_roundtrip (ps : List String) :
    ∀ seen s₀ : List String, (∀ k ∈ s₀, k ∈ seen) →
      (dedupParas s₀ (dedupParas seen ps).1).1 = (dedupParas seen ps).1 := by
  induction ps with
  | nil => intro seen s₀ _; simp [dedupParas]
  | cons p ps ih =>
    intro seen s₀ hsub
    rw [dedupParas]
    split
    · next hcond =>
      simp only []
      rw [dedupParas, if_pos ⟨hcond.1, fun hm => hcond.2.1 (hsub _ hm), hcond.2.2⟩]
      simp only []
      rw [ih (normalizeText p :: seen) (normalizeText p :: s₀) ?_]
      intro k hk
      rcases List.mem_cons.1 hk with h1 | h1
      · subst h1; exact List.mem_cons_self _ _
      · exact List.mem_cons_of_mem _ (hsub k h1)
    · exact ih seen s₀ hsub

theorem sublist_tail_mem {α : Type} {l₁ l₂ : List α} (h : l₁.Sublist l₂) :
    ∀ x ∈ l₁.tail, x ∈ l₂.tail := by
  induction h with
  | slnil => intro x hx; simp at hx
  | cons a h ih =>
    intro x hx
    exact h.subset (List.mem_of_mem_tail hx)
  | cons₂ a h ih =>
    intro x hx
    exact h.subset hx

theorem sublist_dropLast_mem {α : Type} {l₁ l₂ : List α} (h : l₁.Sublist l₂) :
    ∀ x ∈ l₁.dropLast, x ∈ l₂.dropLast := by
  induction h with
  | slnil => intro x hx; simp at hx
  | cons a h ih =>
    rename_i l₁x l₂x
    intro x hx
    have hx2 := ih x hx
    cases l₂x with
    | nil => simp at hx2
    | cons b l₂y =>
      rw [List.dropLast_cons₂]
      exact List.mem_cons_of_mem _ hx2
  | cons₂ a h ih =>
    rename_i l₁ l₂
    intro x hx
    cases l₁ with
    | nil => simp at hx
    | cons c l₁' =>
      have hl₂ : l₂ ≠ [] := by
        intro he
        subst he
        have := List.sublist_nil.mp h
        simp at this
      cases l₂ with
      | nil => exact absurd rfl hl₂
      | cons b l₂' =>
        rw [List.dropLast_cons₂] at hx
        rw [List.dropLast_cons₂]
        rcases List.mem_cons.1 hx with h1 | h1
        · subst h1; exact List.mem_cons_self _ _
        · exact List.mem_cons_of_mem _ (ih x h1)

theorem string_mk_data (s : String) : String.mk s.data = s := rfl

theorem string_data_ne_nil (q : String) (h : q ≠ "") : q.data ≠ [] := by
  intro he
  apply h
  cases q with
  | mk l => simp at he; subst he; rfl

theorem regionPass_idem_core (md : String) : regionPass (regionPass md) = regionPass md := by
  have hP : PiecesOK (splitNN (collapseNL md.data)) := splitNN_props _
  have e0 : regionPass md =
      joinParas (dedupParas [] ((splitNN (collapseNL md.data)).map String.mk)).1 := rfl
  cases hk : (dedupParas [] ((splitNN (collapseNL md.data)).map String.mk)).1 with
  | nil =>
    rw [e0, hk]
    decide
  | cons q kept' =>
    have hsub : (q :: kept').Sublist ((splitNN (collapseNL md.data)).map String.mk) := by
      rw [← hk]
      exact dedupParas_sublist _ []
    have hlong : ∀ p ∈ (q :: kept'), (normalizeText p).length > 20 := by
      intro p hp
      rw [← hk] at hp
      exact dedupParas_kept_long _ [] p hp
    have hKsub : ((q :: kept').map String.data).Sublist (splitNN (collapseNL md.data)) := by
      have h1 := hsub.map String.data
      have h2 : ((splitNN (collapseNL md.data)).map String.mk).map String.data =
          splitNN (collapseNL md.data) := by
        rw [List.map_map]
        have h3 : (String.data ∘ String.mk) = id := funext (fun l => rfl)
        rw [h3, List.map_id]
      rw [h2] at h1
      exact h1
    have hKOK : PiecesOK ((q :: kept').map String.data) := by
      obtain ⟨hb, hc, hd⟩ := hP
      refine ⟨?_, ?_, ?_⟩
      · intro p hp; exact hb p (hKsub.subset hp)
      · intro p hp; exact hc p (sublist_tail_mem hKsub p hp)
      · intro p hp; exact hd p (sublist_dropLast_mem hKsub p hp)
    have hKne : ∀ p ∈ ((q :: kept').map String.data).tail, p ≠ [] := by
      intro p hp
      rw [List.map_cons, List.tail_cons] at hp
      rcases List.mem_map.1 hp with ⟨r, hr, he⟩
      subst he
      apply string_data_ne_nil
      intro hre
      have h20 := hlong r (List.mem_cons_of_mem _ hr)
      rw [hre] at h20
      exact absurd h20 (by decide)
    have hrt := join_roundtrip ((q :: kept').map String.data) hKOK hKne (by simp)
    rw [e0, hk]
    have e1 : regionPass (joinParas (q :: kept')) =
        joinParas (dedupParas []
          ((splitNN (collapseNL (joinNN ((q :: kept').map String.data)))).map String.mk)).1 := rfl
    rw [e1, hrt.1, hrt.2]
    have e3 : ((q :: kept').map String.data).map String.mk = q :: kept' := by
      rw [List.map_map]
      have h3 : (String.mk ∘ String.data) = id := funext string_mk_data
      rw [h3, List.map_id]
    rw [e3, ← hk, dedupParas_roundtrip _ [] [] (fun k hkk => hkk)]

theorem dedupParas_skip (seen : List String) (p : String) (ps : List String)
    (h : normalizeText p ∈ seen) :
    dedupParas seen (p :: ps) = dedupParas seen ps := by
  rw [dedupParas]
  rw [if_neg (by simp [h])]

theorem dedupParas_seen_mono (ps : List String) :
    ∀ seen : List String, ∀ k ∈ seen, k ∈ (dedupParas seen ps).2 := by
  induction ps with
  | nil => intro seen k hk; simpa [dedupParas] using hk
  | cons p ps ih =>
    intro seen k hk
    rw [dedupParas]
    split
    · exact ih _ k (List.mem_cons_of_mem _ hk)
    · exact ih _ k hk

theorem dedupParas_key_recorded (p : String) (ps : List String)
    (hne : normalizeText p ≠ "") (hlen : (normalizeText p).length > 20) :
    ∀ seen : List String, normalizeText p ∈ (dedupParas seen (p :: ps)).2 := by
  intro seen
  rw [dedupParas]
  split
  · exact dedupParas_seen_mono ps _ _ (List.mem_cons_self _ _)
  · next hcond =>
    have hmem : normalizeText p ∈ seen := by
      by_contra hnm
      exact hcond ⟨hne, hnm, hlen⟩
    exact dedupParas_seen_mono ps _ _ hmem

theorem dedupParas_append (xs : List String) :
    ∀ (seen : List String) (ys : List String),
      dedupParas seen (xs ++ ys) =
        ((dedupParas seen xs).1 ++ (dedupParas (dedupParas seen xs).2 ys).1,
         (dedupParas (dedupParas seen xs).2 ys).2) := by
  induction xs with
  | nil => intro seen ys; simp [dedupParas]
  | cons x xs ih =>
    intro seen ys
    rw [List.cons_append, dedupParas, dedupParas]
    split
    · simp only [ih]; rfl
    · simp only [ih]

theorem dedup_truncated_collision_core
    (pre mid post : List String) (p1 p2 : String)
    (hkey : normalizeText p1 = normalizeText p2)
    (hlen : (normalizeText p1).length > 20) :
    ∀ seen : List String,
      dedupParas seen (pre ++ p1 :: (mid ++ p2 :: post)) =
        dedupParas seen (pre ++ p1 :: (mid ++ post)) := by
  intro seen
  have hne : normalizeText p1 ≠ "" := by
    intro h; rw [h] at hlen; simp at hlen
  have hxs : ∀ s : List String, normalizeText p2 ∈ (dedupParas s (pre ++ p1 :: mid)).2 := by
    intro s
    rw [dedupParas_append pre s (p1 :: mid)]
    rw [← hkey]
    exact dedupParas_key_recorded p1 mid hne hlen _
  have h1 : pre ++ p1 :: (mid ++ p2 :: post) = (pre ++ p1 :: mid) ++ (p2 :: post) := by
    simp
  have h2 : pre ++ p1 :: (mid ++ post) = (pre ++ p1 :: mid) ++ post := by
    simp
  rw [h1, h2, dedupParas_append (pre ++ p1 :: mid) seen (p2 :: post),
    dedupParas_append (pre ++ p1 :: mid) seen post,
    dedupParas_skip _ p2 post (hxs seen)]

/-- C7: two distinct paragraphs whose normalization keys agree (they share
the first 100 normalized characters) and exceed 20 characters collide: the
second is dropped by `_html_to_markdown` — rendering a region with the
colliding paragraph produces byte-identical output to rendering it without
that paragraph, and the dedup loop's result is the same list. -/
theorem html_to_markdown_key_collision
    (pre mid post : List String) (p1 p2 : String) (title url : String)
    (q : ℚ) (b : HNode) (r1 r2 : HNode → String)
    (hne : p1 ≠ p2)
    (hkey : normalizeText p1 = normalizeText p2)
    (hlen : (normalizeText p1).length > 20)
    (hr1 : splitParas (String.mk (collapseNL (r1 b).data)) = pre ++ p1 :: (mid ++ p2 :: post))
    (hr2 : splitParas (String.mk (collapseNL (r2 b).data)) = pre ++ p1 :: (mid ++ post)) :
    (∀ seen : List String,
      dedupParas seen (pre ++ p1 :: (mid ++ p2 :: post)) =
        dedupParas seen (pre ++ p1 :: (mid ++ post))) ∧
    htmlToMarkdownR r1 title [(q, b)] url = htmlToMarkdownR r2 title [(q, b)] url := by
  refine ⟨dedup_truncated_collision_core pre mid post p1 p2 hkey hlen, ?_⟩
  simp only [htmlToMarkdownR, List.foldl_cons, List.foldl_nil, splitParas] at hr1 hr2 ⊢
  rw [hr1, hr2, dedup_truncated_collision_core pre mid post p1 p2 hkey hlen []]

theorem html_to_markdown_key_collision_witness :
    ("alpha bravo charlie delta echo foxtrot golf hotel india juliet kilo lima mike november oscar papa quebec sierra" ≠
      "alpha bravo charlie delta echo foxtrot golf hotel india juliet kilo lima mike november oscar papa quebec tango") ∧
    normalizeText "alpha bravo charlie delta echo foxtrot golf hotel india juliet kilo lima mike november oscar papa quebec sierra" =
      normalizeText "alpha bravo charlie delta echo foxtrot golf hotel india juliet kilo lima mike november oscar papa quebec tango" ∧
    htmlToMarkdownR
      (fun _ => "alpha bravo charlie delta echo foxtrot golf hotel india juliet kilo lima mike november oscar papa quebec sierra\n\nalpha bravo charlie delta echo foxtrot golf hotel india juliet kilo lima mike november oscar papa quebec tango")
      "" [(1, dummyNode)] "http://s.example" =
    htmlToMarkdownR
      (fun _ => "alpha bravo charlie delta echo foxtrot golf hotel india juliet kilo lima mike november oscar papa quebec sierra")
      "" [(1, dummyNode)] "http://s.example" := by
  have h := html_to_markdown_key_collision [] [] []
    "alpha bravo charlie delta echo foxtrot golf hotel india juliet kilo lima mike november oscar papa quebec sierra"
    "alpha bravo charlie delta echo foxtrot golf hotel india juliet kilo lima mike november oscar papa quebec tango"
    "" "http://s.example" 1 dummyNode
    (fun _ => "alpha bravo charlie delta echo foxtrot golf hotel india juliet kilo lima mike november oscar papa quebec sierra\n\nalpha bravo charlie delta echo foxtrot golf hotel india juliet kilo lima mike november oscar papa quebec tango")
    (fun _ => "alpha bravo charlie delta echo foxtrot golf hotel india juliet kilo lima mike november oscar papa quebec sierra")
    (by decide) (by decide) (by decide) (by decide) (by decide)
  exact ⟨by decide, by decide, h.2⟩

/-- C9 counterexample: running `_html_to_markdown` a second time on its own
output (as a single region, same empty title and same URL) is not
byte-identical: the long URL's `Source:` footer normalizes to a key above
20 characters, is re-captured as a content paragraph, and the footer is
appended again. -/
theorem normalizer_second_pass_not_identical :
    htmlToMarkdownR
        (fun _ => htmlToMarkdownR (fun _ => paraC9) "" [(1, dummyNode)] urlC9)
        "" [(1, dummyNode)] urlC9 ≠
      htmlToMarkdownR (fun _ => paraC9) "" [(1, dummyNode)] urlC9 := by
  decide

/-- C9 (amended): the per-region normalization-and-deduplication pass
(blank-line collapse, paragraph split, dedup against a fresh seen-set,
blank-line rejoin) is idempotent — a second application to its own output
is byte-identical.  The full page pass need not be: the re-ingested title
heading and `Source:` footer are re-captured as paragraphs whenever their
normalization keys exceed 20 characters. -/
theorem regionPass_idempotent (md : String) :
    regionPass (regionPass md) = regionPass md :=
  regionPass_idem_core md
